import Mathlib

/-!
Shallow embedding of the docs2context crawl-and-aggregation pipeline
(src/src/scraper.js, src/unnamed/part_005, src/unnamed/part_001) together
with proofs of the specification's testable properties.

External collaborators (HTTP fetching, URL parsing, the HTML-to-markdown
converter, and the AI text-completion service) are modelled as explicit
function parameters; everything else is translated directly from the
JavaScript source.
-/

namespace Docs2Context

/-- Models JavaScript `s.includes(sub)`: substring containment. -/
def strIncludes (s sub : String) : Bool :=
  decide (sub.data <:+: s.data)

/-- Models JavaScript `s.endsWith(suffix)`: suffix containment. -/
def strEndsWith (s suffix : String) : Bool :=
  decide (suffix.data <:+ s.data)

/-- ASCII lower-casing of one character. -/
def lowerChar (c : Char) : Char :=
  if (decide ('A' ≤ c)) && (decide (c ≤ 'Z')) then Char.ofNat (c.toNat + 32) else c

/-- Models JavaScript `s.toLowerCase()` (ASCII range). -/
def strToLower (s : String) : String :=
  ⟨s.data.map lowerChar⟩

/-- A scraped page, as built by `scrapePageContent` in src/src/scraper.js. -/
structure Page where
  url : String
  title : String
  content : String
deriving DecidableEq, Repr

/-- Default page used only to state index-based properties via `List.getD`. -/
def defaultPage : Page := ⟨"", "", ""⟩

/-! ## Page Classifier (`isLikelyDocPage`, src/src/scraper.js lines 404-429) -/

/-- The fixed deny-list of path substrings from `isLikelyDocPage`. -/
def excludePatterns : List String :=
  ["/download/", "/releases/", "/changelog/", "/community/", "/forum/",
   "/contact/", "/pricing/", "/team/", "/about/", "/support/", "/legal/",
   "/terms/", "/privacy/"]

/-- `isLikelyDocPage` from src/src/scraper.js: reject a URL containing any
deny-list pattern, accept everything else. -/
def isLikelyDocPage (url : String) : Bool :=
  if excludePatterns.any (fun pattern => strIncludes url pattern) then
    false
  else
    true

theorem strIncludes_iff (s sub : String) :
    strIncludes s sub = true ↔ sub.data <:+: s.data := by
  simp [strIncludes]

/-! ## Content Refiner (`cleanMarkdownWithAI`, src/unnamed/part_005 lines 39-92) -/

/-- Outcome of one call to the external completion service, as seen by
`cleanMarkdownWithAI`: `none` models a thrown error (network failure,
timeout, malformed response); `some mc` models a completed request whose
`choices[0].message.content` is `mc` (`none` there models a null body). -/
abbrev AiOutcome := Option (Option String)

/-- `cleanMarkdownWithAI` from src/unnamed/part_005: returns the service's
rewritten content, falling back to the original `content` when the call
throws, returns a falsy body, or returns fewer than 100 characters.
`title` and `url` only feed the prompt. -/
def cleanMarkdownWithAI (ai : AiOutcome) (content title url : String) : String :=
  match ai with
  | none => content
  | some mc =>
    match mc with
    | none => content
    | some cleanedContent =>
        if cleanedContent.length < 100 then content else cleanedContent

/-- The per-batch AI cleaning step of `scrapeContent` in src/unnamed/part_005
(lines 257-288): every successfully scraped page is mapped through
`cleanMarkdownWithAI`, keeping its url and title. -/
def cleanBatch (aiFor : Page → AiOutcome) (batchPages : List Page) : List Page :=
  batchPages.map (fun page =>
    { page with content := cleanMarkdownWithAI (aiFor page) page.content page.title page.url })

/-! ## Assembler: page ordering (src/src/scraper.js lines 198-209) -/

/-- The fixed set of "introductory" URL markers from the sort comparator. -/
def introTerms : List String :=
  ["intro", "getting-started", "overview", "index", "readme", "home", "quickstart"]

/-- `introTerms.some(term => url.toLowerCase().includes(term))`. -/
def hasIntroTerm (url : String) : Bool :=
  introTerms.any (fun term => strIncludes (strToLower url) term)

/-- Models `a.localeCompare(b)` with the code-point lexicographic order on
strings (negative, zero, or positive). -/
def titleCompare (a b : String) : Int :=
  if a < b then -1 else if b < a then 1 else 0

/-- The comparator passed to `pages.sort` in src/src/scraper.js: introductory
URLs first, then titles. -/
def pageCompare (a b : Page) : Int :=
  let aHasIntro := hasIntroTerm a.url
  let bHasIntro := hasIntroTerm b.url
  if aHasIntro && !bHasIntro then -1
  else if !aHasIntro && bHasIntro then 1
  else titleCompare a.title b.title

/-- The ordering induced by the comparator: `a` may come before `b`. -/
def pageLE (a b : Page) : Prop := pageCompare a b ≤ 0

instance : DecidableRel pageLE := fun a b =>
  inferInstanceAs (Decidable (pageCompare a b ≤ 0))

/-- `introRank p = 0` for introductory pages and `1` otherwise; the comparator
is the lexicographic order on `(introRank, title)`. -/
def introRank (p : Page) : Nat := if hasIntroTerm p.url then 0 else 1

theorem titleCompare_nonpos (a b : String) : titleCompare a b ≤ 0 ↔ a ≤ b := by
  unfold titleCompare
  rcases lt_trichotomy a b with h | h | h
  · simp [h, le_of_lt h]
  · simp [h, lt_irrefl]
  · simp [h, not_lt_of_gt h, not_le.2 h]

theorem pageLE_iff (a b : Page) :
    pageLE a b ↔ introRank a < introRank b ∨ (introRank a = introRank b ∧ a.title ≤ b.title) := by
  unfold pageLE pageCompare introRank
  cases ha : hasIntroTerm a.url <;> cases hb : hasIntroTerm b.url <;>
    simp [ha, hb, titleCompare_nonpos]

instance : IsTotal Page pageLE :=
  ⟨fun a b => by
    rw [pageLE_iff, pageLE_iff]
    rcases lt_trichotomy (introRank a) (introRank b) with h | h | h
    · exact Or.inl (Or.inl h)
    · rcases le_total a.title b.title with ht | ht
      · exact Or.inl (Or.inr ⟨h, ht⟩)
      · exact Or.inr (Or.inr ⟨h.symm, ht⟩)
    · exact Or.inr (Or.inl h)⟩

instance : IsTrans Page pageLE :=
  ⟨fun a b c hab hbc => by
    rw [pageLE_iff] at hab hbc ⊢
    rcases hab with h1 | ⟨h1, t1⟩ <;> rcases hbc with h2 | ⟨h2, t2⟩
    · exact Or.inl (h1.trans h2)
    · exact Or.inl (h2 ▸ h1)
    · exact Or.inl (h1 ▸ h2)
    · exact Or.inr ⟨h1.trans h2, t1.trans t2⟩⟩

/-- `pages.sort(comparator)`: modelled as a sort with respect to `pageLE`. -/
def sortPages (pages : List Page) : List Page :=
  pages.insertionSort pageLE

theorem sortPages_sorted (pages : List Page) : (sortPages pages).Sorted pageLE :=
  List.sorted_insertionSort pageLE pages

/-! ## Assembler: table of contents and final document
(src/src/scraper.js lines 185-236; `formatHeading`/`formatListItem` from
src/src/ui.js with the chalk terminal styling modelled as the identity). -/

/-- `c` is kept verbatim by the anchor rewrite `[^a-z0-9]+ → '-'`. -/
def isAnchorChar (c : Char) : Bool :=
  (decide ('a' ≤ c) && decide (c ≤ 'z')) || (decide ('0' ≤ c) && decide (c ≤ '9'))

/-- Core of `title.toLowerCase().replace(/[^a-z0-9]+/g, '-')`: collapse each
maximal run of non-alphanumeric characters into a single hyphen. -/
def collapseNonAnchor : List Char → List Char
  | [] => []
  | c :: cs =>
    if isAnchorChar c then c :: collapseNonAnchor cs
    else '-' :: collapseNonAnchor (cs.dropWhile (fun d => !isAnchorChar d))
termination_by l => l.length
decreasing_by
  · simp only [List.length_cons]; omega
  · simp only [List.length_cons]
    have h := (List.dropWhile_sublist (fun d => !isAnchorChar d) (l := cs)).length_le
    omega

/-- The anchor derived from a page title in the table of contents. -/
def anchorOf (title : String) : String :=
  ⟨collapseNonAnchor (strToLower title).data⟩

/-- `formatHeading` from src/src/ui.js (chalk styling dropped). -/
def formatHeading (heading : String) : String :=
  "\n" ++ heading ++ "\n"

/-- `formatListItem` from src/src/ui.js with a numeric index (chalk styling
dropped). -/
def formatListItem (item : String) (index : Nat) : String :=
  toString (index + 1) ++ ". " ++ item

/-- The table of contents built by `scrapeContent`: one numbered entry per
page, in final order, linking to the title-derived anchor. -/
def buildToc (pages : List Page) : String :=
  (pages.enum.foldl
    (fun toc pi =>
      toc ++ formatListItem ("[" ++ pi.2.title ++ "](#" ++ anchorOf pi.2.title ++ ")") pi.1 ++ "\n")
    (formatHeading "Table of Contents"))

/-- The fixed terminal result returned when zero pages were scraped. -/
def noContentMessage : String := "No documentation content could be scraped."

/-- The header naming the source start URL. -/
def documentHeader (startUrl : String) : String :=
  "# Documentation\n\nAutomatically aggregated documentation from " ++ startUrl ++ "\n\n"

/-- The compilation tail of `scrapeContent` (src/src/scraper.js lines
185-236): the terminal "nothing scraped" message on an empty page list,
otherwise the sorted pages joined with the header and table of contents. -/
def compileDocumentation (startUrl : String) (pages : List Page) : String :=
  if pages.length = 0 then
    noContentMessage
  else
    let sorted := sortPages pages
    let toc := buildToc sorted
    String.intercalate "\n\n---\n\n"
      (documentHeader startUrl :: toc :: sorted.map Page.content)

/-! ## Content Extractor (`scrapePageContent`, src/src/scraper.js lines 313-397) -/

/-- A DOM node with its tag name and contained text. -/
structure HNode where
  tag : String
  text : String
deriving DecidableEq, Repr

/-- A fetched page as seen through the cheerio selector calls: each selector
maps to the node list of the region it matches (absent when the selector
matches nothing). -/
structure PageDom where
  regions : List (String × List HNode)
deriving Repr

/-- The fixed priority list of content selectors in `scrapePageContent`. -/
def contentSelectors : List String :=
  ["main", "#main-content", ".main-content", ".documentation", ".content",
   "article", ".markdown-body", "#content", ".docs-content", ".docs",
   ".document", ".doc-content", ".readme", ".page-content", "body"]

/-- `$(selector).html()` viewed as the matched region's node list; `none`
models both a missing match (null) and an empty serialization (falsy). -/
def regionOf (dom : PageDom) (selector : String) : Option (List HNode) :=
  match dom.regions.find? (fun r => r.1 == selector) with
  | none => none
  | some r => if r.2.isEmpty then none else some r.2

/-- The selector loop: take the first selector whose region is non-empty. -/
def selectMain (dom : PageDom) : Option (List HNode) :=
  contentSelectors.findSome? (fun selector => regionOf dom selector)

/-- The tags named in `$('script, style, noscript, iframe, svg').remove()`. -/
def strippedTags : List String :=
  ["script", "style", "noscript", "iframe", "svg"]

/-- Drop every node carrying one of the stripped tags. -/
def removeStrippedNodes (nodes : List HNode) : List HNode :=
  nodes.filter (fun n => !(strippedTags.contains n.tag))

/-- The conversion step of `scrapePageContent` (lines 362-381) as written:
the selector loop captures `mainContent` as a serialized snapshot, then
`$('script, style, noscript, iframe, svg').remove()` mutates the live
document, and the external converter (`translate`, modelling
`nhm.translate`) is applied to the earlier snapshot. -/
def extractMarkdown (translate : List HNode → String) (dom : PageDom) : Option String :=
  match selectMain dom with
  | none => none
  | some mainContent =>
    let _domAfterRemove : PageDom :=
      ⟨dom.regions.map (fun r => (r.1, removeStrippedNodes r.2))⟩
    some (translate mainContent)

/-- What the code's own comment ("Clean up the content before converting to
markdown") and the spec prescribe: strip the nodes from the selected region
before handing it to the converter. -/
def extractMarkdownStripped (translate : List HNode → String) (dom : PageDom) : Option String :=
  (selectMain dom).map (fun mainContent => translate (removeStrippedNodes mainContent))

/-- A converter rendering the text of every node it is given; stands in for
the external markdown conversion in the concrete divergence below. -/
def demoTranslate : List HNode → String :=
  fun nodes => String.intercalate "\n" (nodes.map HNode.text)

/-- A page whose main region holds a script node followed by a paragraph. -/
def demoDom : PageDom :=
  ⟨[("main", [⟨"script", "var x = 1;"⟩, ⟨"p", "Hello documentation"⟩])]⟩

/-! ## CLI concurrency option (src/unnamed/part_001 lines 20-37) -/

/-- The default value of the `-c, --concurrency` CLI option. -/
def defaultConcurrencyOption : String := "10"

/-- The value of one decimal digit character. -/
def digitVal (c : Char) : Option Nat :=
  if (decide ('0' ≤ c)) && (decide (c ≤ '9')) then some (c.toNat - '0'.toNat) else none

def parseDigitsAux : Nat → List Char → Option Nat
  | acc, [] => some acc
  | acc, c :: cs =>
    match digitVal c with
    | none => none
    | some d => parseDigitsAux (acc * 10 + d) cs

/-- Base-10 parse of a non-empty all-digit string. -/
def strToNat (s : String) : Option Nat :=
  match s.data with
  | [] => none
  | l => parseDigitsAux 0 l

/-- `parseInt(options.concurrency, 10) || 10` from the `add` command
(modelled on fully-numeric strings; an unparsable value or 0 falls back
to 10). -/
def parseConcurrency (s : String) : Nat :=
  match strToNat s with
  | none => 10
  | some n => if n = 0 then 10 else n

/-! ## Crawl Controller (`scrapeContent`, src/src/scraper.js lines 31-160) -/

/-- `const maxDepth = 4` (line 60). -/
def maxDepth : Nat := 4

/-- `const batchSize = 5` (line 66). -/
def batchSize : Nat := 5

/-- `const maxPages = 500` (line 159). -/
def maxPages : Nat := 500

/-- A successful HTTP response as consumed by `extractLinksFromUrl`: its
declared content type and the page's anchor targets, already resolved
against the page URL by the external URL library. -/
structure FetchResponse where
  contentType : String
  hrefs : List String
deriving Repr

/-- JS `Map.get` on the depth map. -/
def lookupDepth : List (String × Nat) → String → Option Nat
  | [], _ => none
  | (k, v) :: rest, u => if k = u then some v else lookupDepth rest u

/-- JS `Map.set` on the depth map. -/
def setDepth : List (String × Nat) → String → Nat → List (String × Nat)
  | [], k, v => [(k, v)]
  | (k', v') :: rest, k, v =>
    if k' = k then (k', v) :: rest else (k', v') :: setDepth rest k v

/-- JS `Set.add`, preserving insertion order. -/
def setAdd (l : List String) (x : String) : List String :=
  if x ∈ l then l else l ++ [x]

/-- Building a JS `Set` from a list: first occurrences, in order. -/
def dedupFirstAux (seen : List String) : List String → List String
  | [] => []
  | x :: xs =>
    if x ∈ seen then dedupFirstAux seen xs
    else x :: dedupFirstAux (x :: seen) xs

/-- `Array.from(new Set(l))`. -/
def dedupFirst (l : List String) : List String := dedupFirstAux [] l

/-- Extensions of the early-reject regex `\.(pdf|zip|jpg|...|eot)$/i`. -/
def binaryAssetExtensions : List String :=
  ["pdf", "zip", "jpg", "jpeg", "png", "gif", "svg", "css", "js", "ico",
   "woff", "woff2", "ttf", "eot"]

/-- Extensions of the per-link regex `\.(jpg|...|eot)$/i` (pdf and zip are
checked separately with case-sensitive `endsWith`). -/
def mediaAssetExtensions : List String :=
  ["jpg", "jpeg", "png", "gif", "svg", "css", "js", "ico",
   "woff", "woff2", "ttf", "eot"]

def matchesAssetExtension (s : String) : Bool :=
  binaryAssetExtensions.any (fun ext => strEndsWith (strToLower s) ("." ++ ext))

def matchesMediaExtension (s : String) : Bool :=
  mediaAssetExtensions.any (fun ext => strEndsWith (strToLower s) ("." ++ ext))

/-- The content-type gate of `extractLinksFromUrl`. -/
def isHtmlLikeContentType (ct : String) : Bool :=
  strIncludes ct "text/html" || strIncludes ct "application/xhtml+xml" ||
    strIncludes ct "text/plain"

/-- The per-anchor filter in `extractLinksFromUrl` (lines 286-297).
`parseHost` models `new URL(u).hostname`. -/
def keepLink (parseHost : String → String) (baseDomain : String) (link : String) : Bool :=
  decide (parseHost link = baseDomain) &&
  !(strIncludes link "#") &&
  !(strEndsWith link ".pdf") &&
  !(strEndsWith link ".zip") &&
  !(matchesMediaExtension link) &&
  !(strIncludes link "?")

/-- `extractLinksFromUrl` (src/src/scraper.js lines 244-306): reject asset
URLs early, return empty on fetch failure or a non-HTML-like content type,
otherwise the deduplicated filtered anchor targets. `fetch u = none` models
any network error, timeout, or status ≥ 400. -/
def extractLinksFromUrl (parseHost : String → String)
    (fetch : String → Option FetchResponse) (url baseDomain : String) : List String :=
  if matchesAssetExtension url then []
  else
    match fetch url with
    | none => []
    | some response =>
      if !(isHtmlLikeContentType response.contentType) then []
      else dedupFirst (response.hrefs.filter (keepLink parseHost baseDomain))

/-- The crawl traversal state of `scrapeContent`. `processed` is a ghost log
recording, in order and with multiplicity, every URL ever handed to a batch;
it changes nothing observable. -/
structure CrawlState where
  discovered : List String
  visited : List String
  queue : List String
  depthMap : List (String × Nat)
  processed : List String
deriving Repr

/-- Lines 47-63: the start URL is pre-discovered, queued, and at depth 1. -/
def initState (startUrl : String) : CrawlState :=
  { discovered := [startUrl], visited := [], queue := [startUrl],
    depthMap := [(startUrl, 1)], processed := [] }

/-- The body of `for (const link of linksArray)` (lines 115-129): a link not
yet discovered is added to `discovered`, enqueued, and given its depth. -/
def addLink (nextDepth : Nat) (st : CrawlState) (link : String) : CrawlState :=
  if link ∈ st.discovered then st
  else
    { st with discovered := st.discovered ++ [link],
              queue := st.queue ++ [link],
              depthMap := setDepth st.depthMap link nextDepth }

/-- Processing one settled batch result (lines 104-135): look the URL's
depth up again and fold its links. -/
def processResult (st : CrawlState) (result : String × List String) : CrawlState :=
  let nextDepth := (lookupDepth st.depthMap result.1).getD 1 + 1
  result.2.foldl (addLink nextDepth) st

/-- One iteration of `while (urlQueue.length > 0)` (lines 69-139): splice a
batch off the queue, mark each member visited, extract links from members
not beyond `maxDepth` (the map phase reads the pre-batch depth map), then
process the settled results in order. -/
def runBatch (parseHost : String → String) (fetch : String → Option FetchResponse)
    (baseDomain : String) (st : CrawlState) : CrawlState :=
  let batch := st.queue.take batchSize
  let results := batch.map (fun url =>
    let depth := (lookupDepth st.depthMap url).getD 1
    (url, if maxDepth < depth then []
          else extractLinksFromUrl parseHost fetch url baseDomain))
  let st1 : CrawlState :=
    { st with queue := st.queue.drop batchSize,
              visited := batch.foldl setAdd st.visited,
              processed := st.processed ++ batch }
  results.foldl processResult st1

/-- The crawl loop, fuel-indexed to stay total: stop when the queue is
empty or the fuel runs out. -/
def crawlLoop (parseHost : String → String) (fetch : String → Option FetchResponse)
    (baseDomain : String) : Nat → CrawlState → CrawlState
  | 0, st => st
  | fuel + 1, st =>
    if st.queue.isEmpty then st
    else crawlLoop parseHost fetch baseDomain fuel (runBatch parseHost fetch baseDomain st)

/-- A whole crawl from `startUrl`; `baseDomain` is the start URL's hostname
(line 33). -/
def crawl (parseHost : String → String) (fetch : String → Option FetchResponse)
    (startUrl : String) (fuel : Nat) : CrawlState :=
  crawlLoop parseHost fetch (parseHost startUrl) fuel (initState startUrl)

/-- Lines 144-160: the extraction worklist handed to the scraping stage —
the discovered set, deduplicated, filtered by the classifier, truncated to
`maxPages`. -/
def docWorklist (st : CrawlState) : List String :=
  ((dedupFirst st.discovered).filter isLikelyDocPage).take maxPages

/-! ## Map and set lemmas -/

theorem lookupDepth_setDepth_self (m : List (String × Nat)) (k : String) (v : Nat) :
    lookupDepth (setDepth m k v) k = some v := by
  induction m with
  | nil => simp [setDepth, lookupDepth]
  | cons hd tl ih =>
    obtain ⟨k', v'⟩ := hd
    by_cases h : k' = k <;> simp [setDepth, lookupDepth, h, ih]

theorem lookupDepth_setDepth_ne (m : List (String × Nat)) (k u : String) (v : Nat)
    (h : u ≠ k) : lookupDepth (setDepth m k v) u = lookupDepth m u := by
  induction m with
  | nil =>
    have hku : ¬k = u := fun hh => h hh.symm
    simp [setDepth, lookupDepth, hku]
  | cons hd tl ih =>
    obtain ⟨k', v'⟩ := hd
    by_cases hk : k' = k
    · subst hk
      have hku : ¬k' = u := fun hh => h hh.symm
      simp [setDepth, lookupDepth, hku]
    · by_cases hu : k' = u
      · subst hu
        simp [setDepth, lookupDepth, hk, h, ih]
      · simp [setDepth, lookupDepth, hk, hu, ih]

theorem mem_dedupFirstAux (seen l : List String) (u : String) :
    u ∈ dedupFirstAux seen l ↔ u ∈ l ∧ u ∉ seen := by
  induction l generalizing seen with
  | nil => simp [dedupFirstAux]
  | cons x xs ih =>
    by_cases hx : x ∈ seen
    · simp only [dedupFirstAux, hx, if_true, ih, List.mem_cons]
      constructor
      · rintro ⟨h1, h2⟩; exact ⟨Or.inr h1, h2⟩
      · rintro ⟨h1 | h1, h2⟩
        · exact absurd (h1 ▸ hx) h2
        · exact ⟨h1, h2⟩
    · simp only [dedupFirstAux, hx, if_false, List.mem_cons, ih]
      constructor
      · rintro (rfl | ⟨h1, h2⟩)
        · exact ⟨Or.inl rfl, hx⟩
        · exact ⟨Or.inr h1, fun hs => h2 (Or.inr hs)⟩
      · rintro ⟨rfl | h1, h2⟩
        · exact Or.inl rfl
        · by_cases hux : u = x
          · exact Or.inl hux
          · exact Or.inr ⟨h1, fun hs => hs.elim hux h2⟩

theorem mem_dedupFirst (l : List String) (u : String) :
    u ∈ dedupFirst l ↔ u ∈ l := by
  simp [dedupFirst, mem_dedupFirstAux]

theorem nodup_dedupFirstAux (seen l : List String) :
    (dedupFirstAux seen l).Nodup := by
  induction l generalizing seen with
  | nil => simp [dedupFirstAux]
  | cons x xs ih =>
    by_cases hx : x ∈ seen
    · simpa [dedupFirstAux, hx] using ih seen
    · simp only [dedupFirstAux, hx, if_false]
      refine List.Nodup.cons ?_ (ih (x :: seen))
      intro hmem
      exact ((mem_dedupFirstAux (x :: seen) xs x).1 hmem).2 (List.mem_cons_self x _)

theorem nodup_dedupFirst (l : List String) : (dedupFirst l).Nodup :=
  nodup_dedupFirstAux [] l

theorem docWorklist_subset_discovered (st : CrawlState) (u : String)
    (hu : u ∈ docWorklist st) : u ∈ st.discovered := by
  have h1 := List.take_subset maxPages _ hu
  have h2 := (List.mem_filter.1 h1).1
  exact (mem_dedupFirst _ u).1 h2

theorem docWorklist_nodup (st : CrawlState) : (docWorklist st).Nodup :=
  ((nodup_dedupFirst st.discovered).filter _).sublist (List.take_sublist _ _)

/-! ## The crawl invariant and its preservation -/

/-- The invariant the crawl loop maintains: the queue holds only discovered
URLs; a URL is discovered exactly when it has a depth entry; all recorded
depths are at most `maxDepth + 1`; the queue and the processing log are
duplicate-free and disjoint; processed URLs were discovered; and every
discovered URL shares the base hostname. -/
structure CrawlInv (parseHost : String → String) (baseDomain : String)
    (st : CrawlState) : Prop where
  queue_discovered : ∀ u ∈ st.queue, u ∈ st.discovered
  discovered_depth : ∀ u ∈ st.discovered, ∃ d, lookupDepth st.depthMap u = some d
  depth_discovered : ∀ u d, lookupDepth st.depthMap u = some d → u ∈ st.discovered
  depth_bound : ∀ u d, lookupDepth st.depthMap u = some d → d ≤ maxDepth + 1
  queue_nodup : st.queue.Nodup
  processed_nodup : st.processed.Nodup
  queue_processed : ∀ u ∈ st.queue, u ∉ st.processed
  processed_discovered : ∀ u ∈ st.processed, u ∈ st.discovered
  discovered_host : ∀ u ∈ st.discovered, parseHost u = baseDomain

theorem addLink_processed (d : Nat) (st : CrawlState) (link : String) :
    (addLink d st link).processed = st.processed := by
  unfold addLink; split <;> rfl

theorem addLink_discovered_mono (d : Nat) (st : CrawlState) (link u : String)
    (h : u ∈ st.discovered) : u ∈ (addLink d st link).discovered := by
  unfold addLink; split
  · exact h
  · exact List.mem_append_left _ h

theorem addLink_lookup_pres (d : Nat) (st : CrawlState) (link u : String) (v : Nat)
    (hdd : ∀ u d, lookupDepth st.depthMap u = some d → u ∈ st.discovered)
    (h : lookupDepth st.depthMap u = some v) :
    lookupDepth (addLink d st link).depthMap u = some v := by
  unfold addLink; split
  · exact h
  · rename_i hnot
    show lookupDepth (setDepth st.depthMap link d) u = some v
    by_cases hu : u = link
    · exact absurd (hdd u v h) (hu ▸ hnot)
    · rw [lookupDepth_setDepth_ne _ _ _ _ hu]; exact h

theorem addLink_inv (ph : String → String) (bd : String) (d : Nat) (st : CrawlState)
    (link : String) (hinv : CrawlInv ph bd st) (hd : d ≤ maxDepth + 1)
    (hh : ph link = bd) : CrawlInv ph bd (addLink d st link) := by
  by_cases hmem : link ∈ st.discovered
  · unfold addLink; rw [if_pos hmem]; exact hinv
  · unfold addLink; rw [if_neg hmem]
    refine ⟨?_, ?_, ?_, ?_, ?_, ?_, ?_, ?_, ?_⟩
    -- queue_discovered
    · intro u hu
      rcases List.mem_append.1 hu with h | h
      · exact List.mem_append_left _ (hinv.queue_discovered u h)
      · exact List.mem_append_right _ h
    -- discovered_depth
    ·
      intro u hu
      rcases List.mem_append.1 hu with h | h
      · obtain ⟨d0, hd0⟩ := hinv.discovered_depth u h
        have hne : u ≠ link := fun he => hmem (he ▸ h)
        exact ⟨d0, by rw [lookupDepth_setDepth_ne _ _ _ _ hne]; exact hd0⟩
      · rw [List.mem_singleton] at h
        subst h
        exact ⟨d, lookupDepth_setDepth_self _ _ _⟩
    -- depth_discovered
    ·
      intro u v hv
      by_cases hu : u = link
      · exact List.mem_append_right _ (by simp [hu])
      · rw [lookupDepth_setDepth_ne _ _ _ _ hu] at hv
        exact List.mem_append_left _ (hinv.depth_discovered u v hv)
    -- depth_bound
    ·
      intro u v hv
      by_cases hu : u = link
      · subst hu
        rw [lookupDepth_setDepth_self] at hv
        have hdv : d = v := by injection hv
        exact hdv ▸ hd
      · rw [lookupDepth_setDepth_ne _ _ _ _ hu] at hv
        exact hinv.depth_bound u v hv
    -- queue_nodup
    ·
      refine hinv.queue_nodup.append (List.nodup_singleton link) ?_
      intro a ha hb
      rw [List.mem_singleton] at hb
      subst hb
      exact hmem (hinv.queue_discovered a ha)
    -- processed_nodup
    · exact hinv.processed_nodup
    -- queue_processed
    ·
      intro u hu
      rcases List.mem_append.1 hu with h | h
      · exact hinv.queue_processed u h
      · rw [List.mem_singleton] at h
        subst h
        exact fun hp => hmem (hinv.processed_discovered _ hp)
    -- processed_discovered
    ·
      intro u hu
      exact List.mem_append_left _ (hinv.processed_discovered u hu)
    -- discovered_host
    ·
      intro u hu
      rcases List.mem_append.1 hu with h | h
      · exact hinv.discovered_host u h
      · rw [List.mem_singleton] at h
        subst h
        exact hh

theorem foldl_addLink_pres (ph : String → String) (bd : String) (d : Nat)
    (links : List String) :
    ∀ st : CrawlState, CrawlInv ph bd st → d ≤ maxDepth + 1 →
      (∀ l ∈ links, ph l = bd) →
      CrawlInv ph bd (links.foldl (addLink d) st) ∧
      (∀ u v, lookupDepth st.depthMap u = some v →
        lookupDepth (links.foldl (addLink d) st).depthMap u = some v) ∧
      (links.foldl (addLink d) st).processed = st.processed ∧
      (∀ u, u ∈ st.discovered → u ∈ (links.foldl (addLink d) st).discovered) := by
  induction links with
  | nil =>
    intro st hinv _ _
    exact ⟨hinv, fun u v h => h, rfl, fun u h => h⟩
  | cons l ls ih =>
    intro st hinv hd hhost
    simp only [List.foldl_cons]
    have hinv' := addLink_inv ph bd d st l hinv hd (hhost l (List.mem_cons_self l ls))
    obtain ⟨h1, h2, h3, h4⟩ :=
      ih (addLink d st l) hinv' hd (fun x hx => hhost x (List.mem_cons_of_mem l hx))
    refine ⟨h1, ?_, ?_, ?_⟩
    · intro u v h
      exact h2 u v (addLink_lookup_pres d st l u v hinv.depth_discovered h)
    · rw [h3, addLink_processed]
    · intro u h
      exact h4 u (addLink_discovered_mono d st l u h)

/-- A batch result is sound relative to the pre-batch depth map `m0`: all
its links share the base host, and it carries links only when its URL's
recorded depth was within `maxDepth`. -/
def ResultOK (ph : String → String) (bd : String) (m0 : List (String × Nat))
    (r : String × List String) : Prop :=
  (∀ l ∈ r.2, ph l = bd) ∧
  (r.2 ≠ [] → ∃ dv, lookupDepth m0 r.1 = some dv ∧ dv ≤ maxDepth)

theorem processResult_pres (ph : String → String) (bd : String)
    (m0 : List (String × Nat)) (r : String × List String) (st : CrawlState)
    (hinv : CrawlInv ph bd st)
    (hpres : ∀ u v, lookupDepth m0 u = some v → lookupDepth st.depthMap u = some v)
    (hok : ResultOK ph bd m0 r) :
    CrawlInv ph bd (processResult st r) ∧
    (∀ u v, lookupDepth st.depthMap u = some v →
        lookupDepth (processResult st r).depthMap u = some v) ∧
    (processResult st r).processed = st.processed ∧
    (∀ u, u ∈ st.discovered → u ∈ (processResult st r).discovered) := by
  obtain ⟨hhost, hdepth⟩ := hok
  rcases hemp : r.2 with _ | ⟨l0, ls0⟩
  · have heq : processResult st r = st := by simp [processResult, hemp]
    rw [heq]
    exact ⟨hinv, fun u v h => h, rfl, fun u h => h⟩
  · have hne : r.2 ≠ [] := by rw [hemp]; simp
    obtain ⟨dv, hdv, hdvle⟩ := hdepth hne
    have hst : lookupDepth st.depthMap r.1 = some dv := hpres _ _ hdv
    have heq : processResult st r = r.2.foldl (addLink (dv + 1)) st := by
      simp [processResult, hst]
    rw [heq]
    exact foldl_addLink_pres ph bd (dv + 1) r.2 st hinv
      (Nat.add_le_add_right hdvle 1) hhost

theorem foldl_processResult_pres (ph : String → String) (bd : String)
    (m0 : List (String × Nat)) (results : List (String × List String)) :
    ∀ st : CrawlState, CrawlInv ph bd st →
      (∀ u v, lookupDepth m0 u = some v → lookupDepth st.depthMap u = some v) →
      (∀ r ∈ results, ResultOK ph bd m0 r) →
      CrawlInv ph bd (results.foldl processResult st) ∧
      (∀ u v, lookupDepth st.depthMap u = some v →
          lookupDepth (results.foldl processResult st).depthMap u = some v) ∧
      (results.foldl processResult st).processed = st.processed ∧
      (∀ u, u ∈ st.discovered → u ∈ (results.foldl processResult st).discovered) := by
  induction results with
  | nil =>
    intro st hinv _ _
    exact ⟨hinv, fun u v h => h, rfl, fun u h => h⟩
  | cons r rs ih =>
    intro st hinv hpres hok
    simp only [List.foldl_cons]
    obtain ⟨h1, h2, h3, h4⟩ :=
      processResult_pres ph bd m0 r st hinv hpres (hok r (List.mem_cons_self r rs))
    obtain ⟨g1, g2, g3, g4⟩ := ih (processResult st r) h1
      (fun u v h => h2 u v (hpres u v h)) (fun x hx => hok x (List.mem_cons_of_mem r hx))
    exact ⟨g1, fun u v h => g2 u v (h2 u v h), by rw [g3, h3],
      fun u h => g4 u (h4 u h)⟩

theorem extractLinksFromUrl_host (ph : String → String)
    (fetch : String → Option FetchResponse) (url bd l : String)
    (hl : l ∈ extractLinksFromUrl ph fetch url bd) : ph l = bd := by
  unfold extractLinksFromUrl at hl
  by_cases hasset : matchesAssetExtension url
  · rw [if_pos hasset] at hl; simp at hl
  · rw [if_neg hasset] at hl
    rcases hf : fetch url with _ | response
    · rw [hf] at hl; simp at hl
    · rw [hf] at hl
      by_cases hct : isHtmlLikeContentType response.contentType
      · simp only [hct, Bool.not_true, if_false] at hl
        have hmem := (mem_dedupFirst _ l).1 hl
        have hkeep := (List.mem_filter.1 hmem).2
        simp only [keepLink, Bool.and_eq_true, decide_eq_true_eq] at hkeep
        exact hkeep.1.1.1.1.1
      · simp only [hct, Bool.not_false, if_true] at hl
        simp at hl

/-- Zeta-reduced form of `runBatch`. -/
theorem runBatch_eq (ph : String → String) (fetch : String → Option FetchResponse)
    (bd : String) (st : CrawlState) :
    runBatch ph fetch bd st =
      ((st.queue.take batchSize).map (fun url =>
        (url, if maxDepth < (lookupDepth st.depthMap url).getD 1 then []
              else extractLinksFromUrl ph fetch url bd))).foldl processResult
        { st with queue := st.queue.drop batchSize,
                  visited := (st.queue.take batchSize).foldl setAdd st.visited,
                  processed := st.processed ++ st.queue.take batchSize } := rfl

theorem batchResults_ok (ph : String → String) (fetch : String → Option FetchResponse)
    (bd : String) (st : CrawlState) (hinv : CrawlInv ph bd st) :
    ∀ r ∈ (st.queue.take batchSize).map (fun url =>
      (url, if maxDepth < (lookupDepth st.depthMap url).getD 1 then []
            else extractLinksFromUrl ph fetch url bd)), ResultOK ph bd st.depthMap r := by
  intro r hr
  obtain ⟨url, hurl, rfl⟩ := List.mem_map.1 hr
  have hsnd : (url, if maxDepth < (lookupDepth st.depthMap url).getD 1 then ([] : List String)
      else extractLinksFromUrl ph fetch url bd).2 =
      (if maxDepth < (lookupDepth st.depthMap url).getD 1 then ([] : List String)
      else extractLinksFromUrl ph fetch url bd) := rfl
  constructor
  · intro l hl
    rw [hsnd] at hl
    by_cases hc : maxDepth < (lookupDepth st.depthMap url).getD 1
    · rw [if_pos hc] at hl
      exact absurd hl (List.not_mem_nil l)
    · rw [if_neg hc] at hl
      exact extractLinksFromUrl_host ph fetch url bd l hl
  · intro hne
    rw [hsnd] at hne
    by_cases hc : maxDepth < (lookupDepth st.depthMap url).getD 1
    · rw [if_pos hc] at hne
      exact absurd rfl hne
    · obtain ⟨dv, hdv⟩ :=
        hinv.discovered_depth url (hinv.queue_discovered url (List.take_subset _ _ hurl))
      refine ⟨dv, hdv, ?_⟩
      rw [hdv] at hc
      simpa using Nat.le_of_not_lt hc

/-- The spliced state at the start of a batch keeps the invariant. -/
theorem splicedState_inv (ph : String → String) (bd : String) (st : CrawlState)
    (hinv : CrawlInv ph bd st) :
    CrawlInv ph bd
      { st with queue := st.queue.drop batchSize,
                visited := (st.queue.take batchSize).foldl setAdd st.visited,
                processed := st.processed ++ st.queue.take batchSize } := by
  have hq : (st.queue.take batchSize ++ st.queue.drop batchSize).Nodup := by
    rw [List.take_append_drop]; exact hinv.queue_nodup
  obtain ⟨ntake, ndrop, hdisj⟩ := List.nodup_append.1 hq
  have htake_q : ∀ u ∈ st.queue.take batchSize, u ∈ st.queue :=
    fun u h => List.take_subset _ _ h
  have hdrop_q : ∀ u ∈ st.queue.drop batchSize, u ∈ st.queue :=
    fun u h => List.drop_subset _ _ h
  exact
    { queue_discovered := fun u h => hinv.queue_discovered u (hdrop_q u h)
      discovered_depth := hinv.discovered_depth
      depth_discovered := hinv.depth_discovered
      depth_bound := hinv.depth_bound
      queue_nodup := ndrop
      processed_nodup := hinv.processed_nodup.append ntake
        (fun a ha hb => hinv.queue_processed a (htake_q a hb) ha)
      queue_processed := fun u h hmem => by
        rcases List.mem_append.1 hmem with h1 | h1
        · exact hinv.queue_processed u (hdrop_q u h) h1
        · exact hdisj h1 h
      processed_discovered := fun u h => by
        rcases List.mem_append.1 h with h1 | h1
        · exact hinv.processed_discovered u h1
        · exact hinv.queue_discovered u (htake_q u h1)
      discovered_host := hinv.discovered_host }

theorem runBatch_pres (ph : String → String) (fetch : String → Option FetchResponse)
    (bd : String) (st : CrawlState) (hinv : CrawlInv ph bd st) :
    CrawlInv ph bd (runBatch ph fetch bd st) ∧
    (∀ u v, lookupDepth st.depthMap u = some v →
        lookupDepth (runBatch ph fetch bd st).depthMap u = some v) ∧
    (runBatch ph fetch bd st).processed = st.processed ++ st.queue.take batchSize ∧
    (∀ u, u ∈ st.discovered → u ∈ (runBatch ph fetch bd st).discovered) := by
  rw [runBatch_eq]
  obtain ⟨g1, g2, g3, g4⟩ :=
    foldl_processResult_pres ph bd st.depthMap _ _
      (splicedState_inv ph bd st hinv) (fun u v h => h)
      (batchResults_ok ph fetch bd st hinv)
  exact ⟨g1, g2, by rw [g3], g4⟩

theorem crawlLoop_pres (ph : String → String) (fetch : String → Option FetchResponse)
    (bd : String) (fuel : Nat) :
    ∀ st : CrawlState, CrawlInv ph bd st →
      CrawlInv ph bd (crawlLoop ph fetch bd fuel st) ∧
      (∀ u v, lookupDepth st.depthMap u = some v →
          lookupDepth (crawlLoop ph fetch bd fuel st).depthMap u = some v) ∧
      (∀ u, u ∈ st.discovered → u ∈ (crawlLoop ph fetch bd fuel st).discovered) := by
  induction fuel with
  | zero =>
    intro st hinv
    exact ⟨hinv, fun u v h => h, fun u h => h⟩
  | succ n ih =>
    intro st hinv
    by_cases hq : st.queue.isEmpty
    · simp only [crawlLoop, hq, if_true]
      exact ⟨hinv, fun u v h => h, fun u h => h⟩
    · simp only [crawlLoop, hq, if_false]
      obtain ⟨r1, r2, _, r4⟩ := runBatch_pres ph fetch bd st hinv
      obtain ⟨g1, g2, g3⟩ := ih (runBatch ph fetch bd st) r1
      exact ⟨g1, fun u v h => g2 u v (r2 u v h), fun u h => g3 u (r4 u h)⟩

theorem initState_inv (ph : String → String) (startUrl : String) :
    CrawlInv ph (ph startUrl) (initState startUrl) := by
  constructor
  case queue_discovered => intro u h; exact h
  case discovered_depth =>
    intro u h
    rw [show (initState startUrl).discovered = [startUrl] from rfl,
      List.mem_singleton] at h
    subst h
    exact ⟨1, by simp [initState, lookupDepth]⟩
  case depth_discovered =>
    intro u d h
    simp only [initState, lookupDepth] at h ⊢
    by_cases he : startUrl = u
    · simp [he]
    · rw [if_neg he] at h
      exact absurd h (by simp)
  case depth_bound =>
    intro u d h
    simp only [initState, lookupDepth] at h
    by_cases he : startUrl = u
    · rw [if_pos he] at h
      have : (1 : Nat) = d := by injection h
      omega
    · rw [if_neg he] at h
      exact absurd h (by simp)
  case queue_nodup => exact List.nodup_singleton startUrl
  case processed_nodup => exact List.nodup_nil
  case queue_processed =>
    intro u h
    simp [initState]
  case processed_discovered =>
    intro u h
    exact absurd h (List.not_mem_nil u)
  case discovered_host =>
    intro u h
    rw [show (initState startUrl).discovered = [startUrl] from rfl,
      List.mem_singleton] at h
    subst h
    rfl

/-- Every reachable crawl state satisfies the invariant. -/
theorem crawl_inv (ph : String → String) (fetch : String → Option FetchResponse)
    (startUrl : String) (fuel : Nat) :
    CrawlInv ph (ph startUrl) (crawl ph fetch startUrl fuel) :=
  (crawlLoop_pres ph fetch (ph startUrl) fuel (initState startUrl)
    (initState_inv ph startUrl)).1

/-! ## Processed-log lemmas (no invariant needed) -/

theorem foldl_addLink_processed (d : Nat) (links : List String) :
    ∀ st : CrawlState, (links.foldl (addLink d) st).processed = st.processed := by
  induction links with
  | nil => intro st; rfl
  | cons l ls ih =>
    intro st
    simp only [List.foldl_cons]
    rw [ih, addLink_processed]

theorem processResult_processed (st : CrawlState) (r : String × List String) :
    (processResult st r).processed = st.processed :=
  foldl_addLink_processed _ r.2 st

theorem foldl_processResult_processed (results : List (String × List String)) :
    ∀ st : CrawlState, (results.foldl processResult st).processed = st.processed := by
  induction results with
  | nil => intro st; rfl
  | cons r rs ih =>
    intro st
    simp only [List.foldl_cons]
    rw [ih, processResult_processed]

/-- Every round of the crawl hands exactly the first `batchSize` queued URLs
to processing, whatever the crawl options were. -/
theorem runBatch_processed (ph : String → String) (fetch : String → Option FetchResponse)
    (bd : String) (st : CrawlState) :
    (runBatch ph fetch bd st).processed = st.processed ++ st.queue.take batchSize := by
  rw [runBatch_eq, foldl_processResult_processed]

/-! ## Concrete inputs for counterexamples and witnesses -/

/-- A URL parser assigning every URL the same hostname. -/
def demoHost : String → String := fun _ => "h"

/-- A five-page chain `s → a → b → c → d`: each page links to the next. -/
def demoFetch : String → Option FetchResponse := fun u =>
  if u = "s" then some ⟨"text/html", ["a"]⟩
  else if u = "a" then some ⟨"text/html", ["b"]⟩
  else if u = "b" then some ⟨"text/html", ["c"]⟩
  else if u = "c" then some ⟨"text/html", ["d"]⟩
  else none

/-- Two pages, the second with an introductory URL, for the ordering witness. -/
def demoPages : List Page :=
  [⟨"https://x/guide", "B", "c1"⟩, ⟨"https://x/intro", "A", "c2"⟩]

/-- An always-failing completion service. -/
def demoAi : Page → AiOutcome := fun _ => none

/-! ## Claim theorems -/

/-- C1 (counterexample): in the concrete five-page chain crawl, the URL "d"
is in the extraction worklist and in `discovered`, but its recorded depth is
`maxDepth + 1 = 5`, exceeding `maxDepth`. The depth check only suppresses
link extraction; URLs discovered from a depth-`maxDepth` page still enter
`discovered` at depth `maxDepth + 1` and are handed to the Assembler. -/
theorem claim_C1_counterexample :
    "d" ∈ docWorklist (crawl demoHost demoFetch "s" 10) ∧
    lookupDepth (crawl demoHost demoFetch "s" 10).depthMap "d" = some (maxDepth + 1) ∧
    ¬(maxDepth + 1 ≤ maxDepth) := by
  refine ⟨by decide, by decide, by decide⟩

/-- C1 (amended): every URL in the extraction worklist is a member of the
discovered set, and its recorded depth is at most `maxDepth + 1`. -/
theorem claim_C1_amended (ph : String → String) (fetch : String → Option FetchResponse)
    (startUrl : String) (fuel : Nat) (u : String)
    (hu : u ∈ docWorklist (crawl ph fetch startUrl fuel)) :
    u ∈ (crawl ph fetch startUrl fuel).discovered ∧
    ∃ d, lookupDepth (crawl ph fetch startUrl fuel).depthMap u = some d ∧
      d ≤ maxDepth + 1 := by
  have hinv := crawl_inv ph fetch startUrl fuel
  have hd := docWorklist_subset_discovered _ u hu
  obtain ⟨d, hdd⟩ := hinv.discovered_depth u hd
  exact ⟨hd, d, hdd, hinv.depth_bound u d hdd⟩

theorem claim_C1_witness :
    "d" ∈ docWorklist (crawl demoHost demoFetch "s" 10) ∧
    ("d" ∈ (crawl demoHost demoFetch "s" 10).discovered ∧
      ∃ d, lookupDepth (crawl demoHost demoFetch "s" 10).depthMap "d" = some d ∧
        d ≤ maxDepth + 1) :=
  ⟨by decide, claim_C1_amended demoHost demoFetch "s" 10 "d" (by decide)⟩

/-- C2: every URL in the discovered set — and hence every URL in the
extraction worklist feeding the final Document — has the start URL's
hostname. -/
theorem claim_C2 (ph : String → String) (fetch : String → Option FetchResponse)
    (startUrl : String) (fuel : Nat) (u : String) :
    (u ∈ (crawl ph fetch startUrl fuel).discovered → ph u = ph startUrl) ∧
    (u ∈ docWorklist (crawl ph fetch startUrl fuel) → ph u = ph startUrl) := by
  have hinv := crawl_inv ph fetch startUrl fuel
  exact ⟨fun h => hinv.discovered_host u h,
    fun h => hinv.discovered_host u (docWorklist_subset_discovered _ u h)⟩

theorem claim_C2_witness :
    "a" ∈ (crawl demoHost demoFetch "s" 10).discovered ∧ demoHost "a" = demoHost "s" :=
  ⟨by decide, (claim_C2 demoHost demoFetch "s" 10 "a").1 (by decide)⟩

/-- C3: if the refinement call fails (thrown error or null body) or returns
fewer than 100 characters, the page's content after the refinement stage is
its content before refinement, the page's url and title are kept, and the
stage maps every page to exactly one page, so the pipeline cannot fail. -/
theorem claim_C3 (aiF : Page → AiOutcome) (pages : List Page) (i : Nat)
    (hi : i < pages.length)
    (hfail : aiF pages[i] = none ∨ aiF pages[i] = some none ∨
      ∃ s, aiF pages[i] = some (some s) ∧ s.length < 100) :
    (cleanBatch aiF pages).length = pages.length ∧
    ((cleanBatch aiF pages).getD i defaultPage).content = pages[i].content ∧
    ((cleanBatch aiF pages).getD i defaultPage).url = pages[i].url ∧
    ((cleanBatch aiF pages).getD i defaultPage).title = pages[i].title := by
  have hlen : (cleanBatch aiF pages).length = pages.length := by
    simp [cleanBatch]
  have hidx : i < (cleanBatch aiF pages).length := by rw [hlen]; exact hi
  have hget : (cleanBatch aiF pages).getD i defaultPage =
      { pages[i] with content :=
          cleanMarkdownWithAI (aiF pages[i]) pages[i].content pages[i].title pages[i].url } := by
    rw [List.getD_eq_getElem _ _ hidx]
    simp [cleanBatch]
  have hclean : cleanMarkdownWithAI (aiF pages[i]) pages[i].content pages[i].title
      pages[i].url = pages[i].content := by
    rcases hfail with h | h | ⟨s, hs, hlt⟩
    · rw [h]; rfl
    · rw [h]; rfl
    · rw [hs]
      simp [cleanMarkdownWithAI, hlt]
  rw [hget]
  exact ⟨hlen, hclean, rfl, rfl⟩

theorem claim_C3_witness :
    (0 : Nat) < [defaultPage].length ∧
    demoAi [defaultPage][0] = none ∧
    ((cleanBatch demoAi [defaultPage]).length = [defaultPage].length ∧
      ((cleanBatch demoAi [defaultPage]).getD 0 defaultPage).content =
        [defaultPage][0].content ∧
      ((cleanBatch demoAi [defaultPage]).getD 0 defaultPage).url = [defaultPage][0].url ∧
      ((cleanBatch demoAi [defaultPage]).getD 0 defaultPage).title =
        [defaultPage][0].title) :=
  ⟨by decide, rfl, claim_C3 demoAi [defaultPage] 0 (by decide) (Or.inl rfl)⟩

/-- C4 (code bug): `scrapePageContent` captures `mainContent` as a serialized
string before `$('script, style, noscript, iframe, svg').remove()` runs, so
the removal never affects the converted content: the conversion input equals
the unstripped selected region for every page, and on the concrete page whose
main region holds a script node the output differs from what stripping before
conversion (the code's own comment and the spec) would produce, retaining the
script text. -/
theorem claim_C4 :
    (∀ (translate : List HNode → String) (dom : PageDom),
      extractMarkdown translate dom = (selectMain dom).map translate) ∧
    extractMarkdown demoTranslate demoDom ≠
      extractMarkdownStripped demoTranslate demoDom ∧
    extractMarkdown demoTranslate demoDom = some "var x = 1;\nHello documentation" := by
  refine ⟨?_, by decide, by decide⟩
  intro translate dom
  unfold extractMarkdown
  cases selectMain dom <;> rfl

/-- C5: in the assembled order, a page with an introductory URL marker never
follows one without, and among pages of equal introductory status the titles
are in comparator order. -/
theorem claim_C5 (pages : List Page) (i j : Nat) (hij : i < j)
    (hj : j < (sortPages pages).length) :
    ¬(hasIntroTerm ((sortPages pages).getD j defaultPage).url = true ∧
      hasIntroTerm ((sortPages pages).getD i defaultPage).url = false) ∧
    (hasIntroTerm ((sortPages pages).getD i defaultPage).url =
        hasIntroTerm ((sortPages pages).getD j defaultPage).url →
      titleCompare ((sortPages pages).getD i defaultPage).title
        ((sortPages pages).getD j defaultPage).title ≤ 0) := by
  have hi : i < (sortPages pages).length := lt_trans hij hj
  rw [List.getD_eq_getElem _ _ hi, List.getD_eq_getElem _ _ hj]
  have hrel : pageLE (sortPages pages)[i] (sortPages pages)[j] := by
    have hs := sortPages_sorted pages
    exact List.Sorted.rel_get_of_lt hs (a := ⟨i, hi⟩) (b := ⟨j, hj⟩) hij
  rw [pageLE_iff] at hrel
  constructor
  · rintro ⟨hbj, hai⟩
    rcases hrel with h | ⟨h, _⟩ <;>
      simp [introRank, hai, hbj] at h
  · intro heq
    rcases hrel with h | ⟨_, ht⟩
    · exfalso
      have : introRank (sortPages pages)[i] = introRank (sortPages pages)[j] := by
        simp [introRank, heq]
      omega
    · exact (titleCompare_nonpos _ _).2 ht

theorem claim_C5_witness :
    (0 : Nat) < 1 ∧ 1 < (sortPages demoPages).length ∧
    (¬(hasIntroTerm ((sortPages demoPages).getD 1 defaultPage).url = true ∧
        hasIntroTerm ((sortPages demoPages).getD 0 defaultPage).url = false) ∧
      (hasIntroTerm ((sortPages demoPages).getD 0 defaultPage).url =
          hasIntroTerm ((sortPages demoPages).getD 1 defaultPage).url →
        titleCompare ((sortPages demoPages).getD 0 defaultPage).title
          ((sortPages demoPages).getD 1 defaultPage).title ≤ 0)) :=
  ⟨by decide, by decide, claim_C5 demoPages 0 1 (by decide) (by decide)⟩

/-- C6: the page classifier rejects a URL exactly when the URL contains one
of the fixed deny-list substrings, and accepts every other URL; it is a pure
function of the URL string. -/
theorem claim_C6 (url : String) :
    (isLikelyDocPage url = false ↔ ∃ p ∈ excludePatterns, p.data <:+: url.data) ∧
    (isLikelyDocPage url = true ↔ ¬∃ p ∈ excludePatterns, p.data <:+: url.data) := by
  have hiff : excludePatterns.any (fun pattern => strIncludes url pattern) = true ↔
      ∃ p ∈ excludePatterns, p.data <:+: url.data := by
    simp [List.any_eq_true, strIncludes]
  cases hc : excludePatterns.any (fun pattern => strIncludes url pattern) with
  | false =>
    have hno : ¬∃ p ∈ excludePatterns, p.data <:+: url.data := fun h =>
      by rw [← hiff] at h; rw [hc] at h; exact Bool.false_ne_true h
    constructor
    · constructor
      · intro hf
        unfold isLikelyDocPage at hf
        rw [hc] at hf
        exact absurd hf (by simp)
      · intro h; exact absurd h hno
    · constructor
      · intro _; exact hno
      · intro _
        unfold isLikelyDocPage
        rw [hc]
        rfl
  | true =>
    have hyes := hiff.1 hc
    constructor
    · constructor
      · intro _; exact hyes
      · intro _
        unfold isLikelyDocPage
        rw [hc]
        rfl
    · constructor
      · intro ht
        unfold isLikelyDocPage at ht
        rw [hc] at ht
        exact absurd ht (by simp)
      · intro h; exact absurd hyes h

/-- C7: with zero scraped pages, the pipeline returns the fixed terminal
"nothing scraped" message — not a raised fault (the compilation is a total
function) and not a header-plus-table-of-contents document. -/
theorem claim_C7 (startUrl : String) :
    compileDocumentation startUrl [] = noContentMessage ∧
    compileDocumentation startUrl [] ≠
      String.intercalate "\n\n---\n\n"
        [documentHeader startUrl, buildToc (sortPages [])] := by
  refine ⟨rfl, ?_⟩
  intro h
  have hhead := congrArg (fun s => s.data.head?) h
  simp only [String.data] at hhead
  have h1 : (compileDocumentation startUrl []).data.head? = some 'N' := rfl
  have h2 : (String.intercalate "\n\n---\n\n"
      [documentHeader startUrl, buildToc (sortPages [])]).data.head? = some '#' := rfl
  rw [h1, h2] at hhead
  exact absurd (Option.some.inj hhead) (by decide)

/-- C8: a URL is in the discovered set exactly when it has a depth entry, and
once the crawl has recorded a depth for a URL, any amount of further crawling
leaves that entry unchanged. -/
theorem claim_C8 (ph : String → String) (fetch : String → Option FetchResponse)
    (startUrl : String) (fuel extra : Nat) (u : String) (d : Nat) :
    (u ∈ (crawl ph fetch startUrl fuel).discovered ↔
      ∃ d0, lookupDepth (crawl ph fetch startUrl fuel).depthMap u = some d0) ∧
    (lookupDepth (crawl ph fetch startUrl fuel).depthMap u = some d →
      lookupDepth (crawlLoop ph fetch (ph startUrl) extra
        (crawl ph fetch startUrl fuel)).depthMap u = some d) := by
  have hinv := crawl_inv ph fetch startUrl fuel
  constructor
  · constructor
    · exact fun h => hinv.discovered_depth u h
    · rintro ⟨d0, h⟩
      exact hinv.depth_discovered u d0 h
  · intro h
    exact (crawlLoop_pres ph fetch (ph startUrl) extra _ hinv).2.1 u d h

theorem claim_C8_witness :
    lookupDepth (crawl demoHost demoFetch "s" 10).depthMap "a" = some 2 ∧
    lookupDepth (crawlLoop demoHost demoFetch (demoHost "s") 3
      (crawl demoHost demoFetch "s" 10)).depthMap "a" = some 2 :=
  ⟨by decide, (claim_C8 demoHost demoFetch "s" 10 3 "a" 2).2 (by decide)⟩

/-- C9 (code bug): the crawl does process URLs in bounded batches, but the
batch size is the hard-coded constant 5, not the caller's concurrency option:
`scrapeContent(startUrl)` ignores the options object, while the CLI parses
`--concurrency` with default "10". Each round hands exactly
`min batchSize queue.length` URLs to processing. -/
theorem claim_C9 :
    batchSize = 5 ∧
    parseConcurrency defaultConcurrencyOption = 10 ∧
    batchSize ≠ parseConcurrency defaultConcurrencyOption ∧
    (∀ (ph : String → String) (fetch : String → Option FetchResponse)
      (bd : String) (st : CrawlState),
      (runBatch ph fetch bd st).processed = st.processed ++ st.queue.take batchSize) :=
  ⟨rfl, by decide, by decide, fun ph fetch bd st => runBatch_processed ph fetch bd st⟩

/-- C10: the processing log of a crawl never repeats a URL (each URL is
fetched for link expansion at most once), the queue never holds duplicates
and holds only discovered URLs, the start URL is pre-discovered, and the
extraction worklist lists each URL at most once (at most one section per
URL in the final Document). -/
theorem claim_C10 (ph : String → String) (fetch : String → Option FetchResponse)
    (startUrl : String) (fuel : Nat) :
    (crawl ph fetch startUrl fuel).processed.Nodup ∧
    (crawl ph fetch startUrl fuel).queue.Nodup ∧
    (∀ u ∈ (crawl ph fetch startUrl fuel).queue,
      u ∈ (crawl ph fetch startUrl fuel).discovered) ∧
    startUrl ∈ (initState startUrl).discovered ∧
    startUrl ∈ (crawl ph fetch startUrl fuel).discovered ∧
    (docWorklist (crawl ph fetch startUrl fuel)).Nodup := by
  have hinv := crawl_inv ph fetch startUrl fuel
  have hmono := (crawlLoop_pres ph fetch (ph startUrl) fuel (initState startUrl)
    (initState_inv ph startUrl)).2.2
  exact ⟨hinv.processed_nodup, hinv.queue_nodup, hinv.queue_discovered,
    List.mem_singleton_self startUrl,
    hmono startUrl (List.mem_singleton_self startUrl),
    docWorklist_nodup _⟩

theorem claim_C10_witness :
    "b" ∈ (crawl demoHost demoFetch "s" 2).queue ∧
    "b" ∈ (crawl demoHost demoFetch "s" 2).discovered :=
  ⟨by decide, (claim_C10 demoHost demoFetch "s" 2).2.2.1 "b" (by decide)⟩

end Docs2Context
